import Mathlib

set_option linter.unusedSectionVars false

/-!
Verification development for the folder-watch document consumer
(`src/documents/management/commands/document_consumer.py`).

Filesystem paths are modelled as lists of path segments (the components of an
already-normalized absolute path), monotonic-clock readings as rationals, and
the collaborating services (stdlib `fnmatch`, the extension table from
`documents.parsers`, the Django tag registry, the Celery task sink and the
database connection) as oracle parameters recorded in an environment record.
Python exceptions are modelled with `Except String`.
-/

namespace PaperlessConsumer

/-- A filesystem path, as its list of segments. -/
abbrev FsPath := List String

/-- Model of `PurePath(p).relative_to(root)`: succeeds with the root-relative segment
list when `root` is a prefix of `p`, and raises `ValueError` otherwise. -/
def relativeTo (root p : FsPath) : Except String FsPath :=
  if p.take root.length = root then .ok (p.drop root.length)
  else .error "ValueError: path is not in the subpath of the other path"

/-- Glob matching on segment characters. Modelled from the spec: the stdlib
`fnmatch` collaborator is not part of the repository; this instance covers the
glob features the spec mentions (`*`, `?` and literal characters, e.g. the
pattern `skip/*`). The ignore check itself is parametric in the matcher. -/
def globMatchL : List Char → List Char → Bool
  | [], s => s.isEmpty
  | '*' :: ps, s => s.tails.any (fun t => globMatchL ps t)
  | '?' :: ps, s =>
    match s with
    | [] => false
    | _ :: s => globMatchL ps s
  | p :: ps, s =>
    match s with
    | [] => false
    | c :: s => p == c && globMatchL ps s

/-- Glob matching on whole segments (strings). -/
def globMatch (pat s : String) : Bool :=
  globMatchL pat.toList s.toList

/-- The segment list `_is_ignored` matches patterns against: every part of the
root-relative path that is not equal to `filepath_relative.name` (the final
component) gets a trailing `/` appended; parts equal to the final component's
name are left bare. -/
def relSegs (rel : FsPath) : List String :=
  match rel.getLast? with
  | none => []
  | some name => rel.map (fun part => if part = name then part else part ++ "/")

/-- The segment list described by the spec's words (for comparison with
`relSegs`): a trailing separator on every segment except the final (file)
segment, by position. -/
def specSegs (rel : FsPath) : List String :=
  (rel.dropLast.map (fun part => part ++ "/")) ++
    (match rel.getLast? with
     | none => []
     | some name => [name])

/-- Model of `_is_ignored(filepath)`: computes the path relative to the consumption
directory (raising `ValueError` if the path does not lie under it), builds the
segment list, and returns true iff some configured pattern matches some
segment. `fnm` is the stdlib `fnmatch` collaborator. -/
def isIgnoredE (fnm : String → String → Bool) (consDir : FsPath)
    (patterns : List String) (p : FsPath) : Except String Bool :=
  match relativeTo consDir p with
  | .error e => .error e
  | .ok rel => .ok (patterns.any (fun pat => (relSegs rel).any (fun s => fnm pat s)))

/-- Log levels used by the consumer module. -/
inductive LogLevel where
  | debug
  | info
  | warning
  | error
deriving DecidableEq, Repr

/-- One emitted log record. -/
structure LogMsg where
  level : LogLevel
  text : String
deriving DecidableEq, Repr

/-- Render a path for log messages. -/
def pathStr (p : FsPath) : String :=
  String.intercalate "/" p

def movedMsg (p : FsPath) : String :=
  "Not consuming file " ++ pathStr p ++ ": File has moved."

def extMsg (p : FsPath) : String :=
  "Not consuming file " ++ pathStr p ++ ": Unknown file extension."

def openFailMsg (p : FsPath) (e : Option String) : String :=
  "Not consuming file " ++ pathStr p ++ ": OS reports " ++ e.getD "None"

def queueMsg (p : FsPath) : String :=
  "Adding " ++ pathStr p ++ " to the task queue."

def tagErrMsg : String :=
  "Error creating tags from path"

def dispatchErrMsg : String :=
  "Error while consuming document"

/-- The tag registry contents: (name as stored, primary key) pairs. -/
abbrev TagReg := List (String × Nat)

/-- Python's `str.lower()` as used by the case-insensitive `name__iexact`
match, on the character list of the string. -/
def lowerStr (s : String) : List Char :=
  s.data.map Char.toLower

/-- Case-insensitive lookup in the registry (the `name__iexact` match). -/
def findLower (r : TagReg) (name : String) : Option (String × Nat) :=
  r.find? (fun e => lowerStr e.1 = lowerStr name)

/-- A primary key not yet used by any registry row. -/
def freshId (r : TagReg) : Nat :=
  (r.map (fun e => e.2)).foldr (fun a b => max a b) 0 + 1

/-- Modelled from the spec: the tag registry collaborator
(`Tag.objects.get_or_create` with a case-insensitive name match, creating with
the original case if absent) lives in the Django ORM, outside this repository.
The spec calls it `get_or_create_tag(name) -> TagId`, case-insensitive and
idempotent. Returns the row's primary key and the possibly-extended registry. -/
def getOrCreate (name : String) (r : TagReg) : Nat × TagReg :=
  match findLower r name with
  | some e => (e.2, r)
  | none => (freshId r, r ++ [(name, freshId r)])

/-- Model of `tag_ids.add(pk)` on a Python set, modelled as insertion-ordered
deduplicated insertion (the claims are independent of set iteration order). -/
def addIdOnce (ids : List Nat) (i : Nat) : List Nat :=
  if i ∈ ids then ids else ids ++ [i]

/-- Resolve a name against a registry, returning only the pk. -/
def idAt (r : TagReg) (n : String) : Nat :=
  (getOrCreate n r).1

/-- The loop of `_tags_from_path` over the directory parts. -/
def tagLoop : List String → TagReg → List Nat → List Nat × TagReg
  | [], r, ids => (ids, r)
  | part :: rest, r, ids =>
    let x := getOrCreate part r
    tagLoop rest x.2 (addIdOnce ids x.1)

/-- Model of `_tags_from_path(filepath)`: closes old DB connections (a DB failure there
or in `get_or_create` is modelled by the `dbError` oracle), takes the parts of
the parent of the path relative to `CONSUMPTION_DIR` (raising if the path is
not under it), and gets-or-creates a tag per part, collecting the set of pks. -/
def tagsFromPath (dbError : Option String) (consDir : FsPath) (r : TagReg)
    (p : FsPath) : Except String (List Nat × TagReg) :=
  match dbError with
  | some e => .error e
  | none =>
    match relativeTo consDir p with
    | .error e => .error e
    | .ok rel => .ok (tagLoop rel.dropLast r [])

/-- The body of the open-retry loop of `_consume`, recursing on the number of
attempts still allowed (`remaining = limit - count`, so `remaining = 0` is
exactly the loop condition `count < limit` failing). A raised `OSError` (text
given by the `att` oracle) increments the count and records the error text;
a successful open exits the loop with `file_open_ok` set. -/
def openRetryGo (att : Nat → Option String) :
    Nat → Nat → Option String → Nat × Bool × Option String
  | 0, count, lastErr => (count, false, lastErr)
  | n + 1, count, lastErr =>
    match att count with
    | none => (count, true, lastErr)
    | some e => openRetryGo att n (count + 1) (some e)

/-- The open-retry loop of `_consume`: starting from `count` failures and last
error `lastErr`, while `count < limit` and the file has not opened, try
attempt number `count`. Returns the final `read_try_count`, `file_open_ok`
and `os_error_str`. -/
def openRetryLoop (att : Nat → Option String) (limit : Nat) (count : Nat)
    (lastErr : Option String) : Nat × Bool × Option String :=
  openRetryGo att (limit - count) count lastErr

/-- The environment of configuration values and external collaborators that
`_consume` reads. Fields whose code is outside this repository
(`is_file_ext_supported`, `fnmatch`, the filesystem, the DB, the task sink)
are oracles, modelled from the spec's collaborator contracts. -/
structure Env where
  /-- Setting `settings.CONSUMPTION_DIR`. -/
  consumptionDir : FsPath
  /-- Setting `settings.CONSUMER_IGNORE_PATTERNS`. -/
  ignorePatterns : List String
  /-- Setting `settings.CONSUMER_SUBDIRS_AS_TAGS`. -/
  subdirsAsTags : Bool
  /-- stdlib `fnmatch` on one segment. -/
  fnmatch : String → String → Bool
  /-- Oracle for `os.path.isdir`. -/
  isDir : FsPath → Bool
  /-- Oracle for `os.path.isfile`. -/
  isFile : FsPath → Bool
  /-- Oracle for `is_file_ext_supported(os.path.splitext(p)[1])`. -/
  extSupported : FsPath → Bool
  /-- Outcome of the `open(filepath, "rb")` call on attempt `i`: `none` means
  the open succeeds, `some e` means an `OSError` with text `e`. -/
  openAttempt : FsPath → Nat → Option String
  /-- A database failure inside `_tags_from_path`, if any. -/
  dbError : Option String
  /-- An exception raised by `consume_file.delay(...)`, if any. -/
  dispatchExc : FsPath → Option (List Nat) → Option String

/-- What a `_consume` call did: the log records it emitted, the task-queue
submissions it made (path with the `tag_ids` override), and the tag registry
afterwards. -/
structure ConsumeOut where
  logs : List LogMsg
  dispatches : List (FsPath × Option (List Nat))
  reg : TagReg
deriving DecidableEq, Repr

/-- The tag-derivation stage of `_consume`: `tag_ids = None`, then, inside a
try/except that logs `Error creating tags from path`, if
`CONSUMER_SUBDIRS_AS_TAGS` is set, `tag_ids = _tags_from_path(filepath)`.
Returns the `tag_ids` value, the log records emitted and the registry. -/
def tagStage (env : Env) (reg : TagReg) (p : FsPath) :
    Option (List Nat) × List LogMsg × TagReg :=
  if env.subdirsAsTags then
    match tagsFromPath env.dbError env.consumptionDir reg p with
    | .ok x => (some x.1, [], x.2)
    | .error _ => (none, [⟨.error, tagErrMsg⟩], reg)
  else (none, [], reg)

/-- The dispatch stage of `_consume`: log the info line, call
`consume_file.delay(ConsumableDocument(...), DocumentMetadataOverrides(tag_ids))`,
and turn an exception from the task sink into an error log record. -/
def dispatchStage (env : Env) (reg2 : TagReg) (p : FsPath)
    (tagIds : Option (List Nat)) (tagLogs : List LogMsg) : ConsumeOut :=
  match env.dispatchExc p tagIds with
  | none => ⟨tagLogs ++ [⟨.info, queueMsg p⟩], [(p, tagIds)], reg2⟩
  | some _ =>
    ⟨tagLogs ++ [⟨.info, queueMsg p⟩] ++ [⟨.error, dispatchErrMsg⟩], [(p, tagIds)], reg2⟩

/-- Model of `_consume(filepath)`. An `Except.error` is an exception escaping to the
caller; everything the source catches is turned into log records. -/
def consume (env : Env) (reg : TagReg) (p : FsPath) : Except String ConsumeOut :=
  if env.isDir p then .ok ⟨[], [], reg⟩
  else
    match isIgnoredE env.fnmatch env.consumptionDir env.ignorePatterns p with
    | .error e => .error e
    | .ok true => .ok ⟨[], [], reg⟩
    | .ok false =>
      if !env.isFile p then .ok ⟨[⟨.debug, movedMsg p⟩], [], reg⟩
      else if !env.extSupported p then .ok ⟨[⟨.warning, extMsg p⟩], [], reg⟩
      else if 50 ≤ (openRetryLoop (env.openAttempt p) 50 0 none).1 then
        .ok ⟨[⟨.warning, openFailMsg p (openRetryLoop (env.openAttempt p) 50 0 none).2.2⟩],
          [], reg⟩
      else
        .ok (dispatchStage env (tagStage env reg p).2.2 p (tagStage env reg p).1
          (tagStage env reg p).2.1)

/-!
The event loop of `Command.handle` (lines 224-290): the pending map
`notified_files : dict[Path, float]`, the per-change transitions, the
readiness sweep and the timeout recomputation. Monotonic-clock readings are
real-valued; they are modelled by an arbitrary linearly ordered additive
commutative group `α` (so the theorems cover any real-like time scale, and
concrete witnesses instantiate `α := ℤ`). Python dicts are insertion-ordered
with unique keys; the map is an association list and the operations below
preserve key uniqueness and insertion order exactly as dict assignment and
`pop` do. Within one sweep the source reads the clock once per file; since
those readings and the claims are per-path, one `now` value per sweep is
used.
-/

variable {α : Type} [LinearOrderedAddCommGroup α]

/-- The pending map `notified_files`. -/
abbrev PendingMap (α : Type) := List (FsPath × α)

/-- Dict lookup. -/
def lookupPath (m : PendingMap α) (p : FsPath) : Option α :=
  (m.find? (fun e => decide (e.1 = p))).map (fun e => e.2)

/-- Dict write `notified_files[path] = t`: overwrite in place if present, append if new. -/
def setKey : PendingMap α → FsPath → α → PendingMap α
  | [], p, t => [(p, t)]
  | e :: m, p, t => if e.1 = p then (p, t) :: m else e :: setKey m p t

/-- Dict removal `notified_files.pop(path, None)`: drop the entry for `path` if present. -/
def removePath (m : PendingMap α) (p : FsPath) : PendingMap α :=
  m.filter (fun e => decide (e.1 ≠ p))

/-- The `watchfiles.Change` kinds. -/
inductive ChangeKind where
  | added
  | modified
  | deleted
deriving DecidableEq, Repr

/-- One filesystem change delivered by `watch`, with the `monotonic()` value
read while processing it. -/
structure RawChange (α : Type) where
  kind : ChangeKind
  path : FsPath
  time : α
deriving DecidableEq, Repr

/-- The `match change_type` statement: add/modify records the current time,
delete removes the entry. -/
def processChange (m : PendingMap α) (c : RawChange α) : PendingMap α :=
  match c.kind with
  | .added => setKey m c.path c.time
  | .modified => setKey m c.path c.time
  | .deleted => removePath m c.path

/-- The readiness sweep over `notified_files.items()`: a path whose entry has
waited strictly longer than the debounce interval and which still exists as a
regular file is consumed (dispatched) and dropped; a not-yet-ready path that
still exists is kept in `still_waiting`; a vanished path is dropped silently.
Returns the consumed paths in iteration order and the new map. -/
def sweepMap (debounce now : α) (fileExists : FsPath → Bool) :
    PendingMap α → List FsPath × PendingMap α
  | [] => ([], [])
  | e :: m =>
    let rest := sweepMap debounce now fileExists m
    if now - e.2 > debounce ∧ fileExists e.1 then (e.1 :: rest.1, rest.2)
    else if fileExists e.1 then (rest.1, e :: rest.2)
    else rest

/-- The inputs one iteration of the `while not self.stop_flag.is_set()` loop
consumes: the batch of changes yielded by `watch`, the clock value at the
sweep, and the filesystem state (`exists() and is_file()`) at the sweep. -/
structure IterInput (α : Type) where
  changes : List (RawChange α)
  sweepNow : α
  fileExists : FsPath → Bool

/-- One loop iteration: drain the batch into the map, sweep, then recompute
`read_timeout_ms` (debounce interval if files are pending, the testing
timeout under the test harness, else 0 = indefinite). Returns the new map,
the consumed paths and the recomputed timeout. -/
def loopIteration (debounce : α) (isTesting : Bool) (debounceMs testingMs : Nat)
    (it : IterInput α) (m : PendingMap α) : PendingMap α × List FsPath × Nat :=
  let m1 := it.changes.foldl processChange m
  let swept := sweepMap debounce it.sweepNow it.fileExists m1
  let timeout := if swept.2.length > 0 then debounceMs
                 else if isTesting then testingMs else 0
  (swept.2, swept.1, timeout)

/-- What one iteration produced. -/
structure IterResult (α : Type) where
  mapAfter : PendingMap α
  dispatched : List FsPath
  timeoutAfter : Nat
deriving DecidableEq, Repr

/-- Run the loop over a list of iteration inputs. -/
def runIters (debounce : α) (isTesting : Bool) (debounceMs testingMs : Nat) :
    List (IterInput α) → PendingMap α → List (IterResult α)
  | [], _ => []
  | it :: rest, m =>
    let r := loopIteration debounce isTesting debounceMs testingMs it m
    ⟨r.1, r.2.1, r.2.2⟩ :: runIters debounce isTesting debounceMs testingMs rest r.1

/-!
The per-path projection of the loop, used for the debounce-coalescing claim:
for one fixed path, an add/modify event overwrites the tracked timestamp
(`setKey`), and a sweep at time `s` consumes the path iff it has an entry,
`s - t > debounce` and the file still exists (`sweepMap`); a vanished path is
dropped. `runFrom` folds a list of such actions over the path's tracked
timestamp, returning the final timestamp and the times of the sweeps that
consumed the path. The bridge lemmas following the definitions show each step
agrees with the map-level operations.
-/

/-- An action affecting one fixed path: an add/modify event at a time, or a
sweep at a time with the file's existence status at that sweep. -/
inductive Action (α : Type) where
  | event : α → Action α
  | sweep : α → Bool → Action α
deriving DecidableEq, Repr

/-- The clock value of an action. -/
def actTime : Action α → α
  | .event t => t
  | .sweep s _ => s

/-- All action times, in order. -/
def actTimes (tr : List (Action α)) : List α :=
  tr.map actTime

/-- The add/modify event times of a trace, in order. -/
def evTimes : List (Action α) → List α
  | [] => []
  | .event t :: r => t :: evTimes r
  | .sweep _ _ :: r => evTimes r

/-- Run a trace of actions on one path's tracked state (`none` = not in the
pending map). Returns the final tracked state and the times of the sweeps
that handed the path off to `_consume`. -/
def runFrom (d : α) : Option α → List (Action α) → Option α × List α
  | _, .event t :: rest => runFrom d (some t) rest
  | none, .sweep _ _ :: rest => runFrom d none rest
  | some t0, .sweep s ex :: rest =>
    if s - t0 > d ∧ ex = true then
      let r := runFrom d none rest
      (r.1, s :: r.2)
    else if ex then runFrom d (some t0) rest
    else runFrom d none rest
  | tk, [] => (tk, [])

/-- The tracked timestamp viewed as a (zero- or one-element) prefix of a time
list: the burst hypothesis of the coalescing lemma covers the tracked entry
together with the upcoming event times. -/
def optCons : Option α → List α → List α
  | none, l => l
  | some t, l => t :: l

/-!
Theorems. First the supporting lemmas about the pending-map operations, then
one theorem per claim (each with a witness when it carries hypotheses).
-/


theorem lookupPath_eq_none_iff (m : PendingMap α) (p : FsPath) :
    lookupPath m p = none ↔ ∀ e ∈ m, e.1 ≠ p := by
  simp [lookupPath, List.find?_eq_none]

theorem removePath_avoids (m : PendingMap α) (p : FsPath) :
    ∀ e ∈ removePath m p, e.1 ≠ p := by
  intro e he
  have h := (List.mem_filter.mp he).2
  simpa using h

theorem removePath_subset (m : PendingMap α) (p : FsPath) :
    ∀ e ∈ removePath m p, e ∈ m := by
  intro e he
  exact (List.mem_filter.mp he).1

theorem setKey_avoids (m : PendingMap α) (q : FsPath) (t : α) (p : FsPath)
    (hm : ∀ e ∈ m, e.1 ≠ p) (hq : q ≠ p) :
    ∀ e ∈ setKey m q t, e.1 ≠ p := by
  induction m with
  | nil =>
    intro e he
    simp only [setKey, List.mem_singleton] at he
    subst he
    exact hq
  | cons a m ih =>
    intro e he
    by_cases h : a.1 = q
    · simp only [setKey, if_pos h, List.mem_cons] at he
      rcases he with rfl | he
      · exact hq
      · exact hm e (List.mem_cons_of_mem a he)
    · simp only [setKey, if_neg h, List.mem_cons] at he
      rcases he with h1 | he
      · rw [h1]
        exact hm a (List.mem_cons_self a m)
      · exact ih (fun e' he' => hm e' (List.mem_cons_of_mem a he')) e he

theorem processChange_avoids (m : PendingMap α) (c : RawChange α) (p : FsPath)
    (hm : ∀ e ∈ m, e.1 ≠ p)
    (hc : (c.kind = ChangeKind.added ∨ c.kind = ChangeKind.modified) → c.path ≠ p) :
    ∀ e ∈ processChange m c, e.1 ≠ p := by
  cases hk : c.kind with
  | added =>
    simp only [processChange, hk]
    exact setKey_avoids m c.path c.time p hm (hc (Or.inl hk))
  | modified =>
    simp only [processChange, hk]
    exact setKey_avoids m c.path c.time p hm (hc (Or.inr hk))
  | deleted =>
    simp only [processChange, hk]
    intro e he
    exact hm e (removePath_subset m c.path e he)

theorem foldl_processChange_avoids (p : FsPath) :
    ∀ (cs : List (RawChange α)) (m : PendingMap α),
      (∀ e ∈ m, e.1 ≠ p) →
      (∀ c ∈ cs, (c.kind = ChangeKind.added ∨ c.kind = ChangeKind.modified) → c.path ≠ p) →
      ∀ e ∈ cs.foldl processChange m, e.1 ≠ p := by
  intro cs
  induction cs with
  | nil => intro m hm _ e he; exact hm e he
  | cons c cs ih =>
    intro m hm hcs e he
    exact ih (processChange m c)
      (processChange_avoids m c p hm (hcs c (List.mem_cons_self c cs)))
      (fun c' hc' => hcs c' (List.mem_cons_of_mem c hc')) e he

theorem sweepMap_dispatched_mem (d now : α) (ex : FsPath → Bool) :
    ∀ (m : PendingMap α) (q : FsPath), q ∈ (sweepMap d now ex m).1 → ∃ e ∈ m, e.1 = q := by
  intro m
  induction m with
  | nil => intro q h; simp [sweepMap] at h
  | cons e m ih =>
    intro q h
    simp only [sweepMap] at h
    split at h
    · rcases List.mem_cons.mp h with rfl | h
      · exact ⟨e, List.mem_cons_self e m, rfl⟩
      · obtain ⟨e', he', rfl⟩ := ih q h
        exact ⟨e', List.mem_cons_of_mem e he', rfl⟩
    · split at h
      · obtain ⟨e', he', rfl⟩ := ih q h
        exact ⟨e', List.mem_cons_of_mem e he', rfl⟩
      · obtain ⟨e', he', rfl⟩ := ih q h
        exact ⟨e', List.mem_cons_of_mem e he', rfl⟩

theorem sweepMap_still_subset (d now : α) (ex : FsPath → Bool) :
    ∀ (m : PendingMap α), ∀ e ∈ (sweepMap d now ex m).2, e ∈ m := by
  intro m
  induction m with
  | nil => intro e he; simp [sweepMap] at he
  | cons a m ih =>
    intro e he
    simp only [sweepMap] at he
    split at he
    · exact List.mem_cons_of_mem a (ih e he)
    · split at he
      · rcases List.mem_cons.mp he with h1 | he
        · rw [h1]
          exact List.mem_cons_self a m
        · exact List.mem_cons_of_mem a (ih e he)
      · exact List.mem_cons_of_mem a (ih e he)

theorem runIters_avoid (d : α) (tst : Bool) (dm tm : Nat) (p : FsPath) :
    ∀ (iters : List (IterInput α)) (m : PendingMap α),
      (∀ e ∈ m, e.1 ≠ p) →
      (∀ it ∈ iters, ∀ c ∈ it.changes,
        (c.kind = ChangeKind.added ∨ c.kind = ChangeKind.modified) → c.path ≠ p) →
      ∀ res ∈ runIters d tst dm tm iters m, p ∉ res.dispatched := by
  intro iters
  induction iters with
  | nil => intro m _ _ res hres; simp [runIters] at hres
  | cons it rest ih =>
    intro m hm hiters res hres
    have hm1 : ∀ e ∈ it.changes.foldl processChange m, e.1 ≠ p :=
      foldl_processChange_avoids p it.changes m hm
        (fun c hc => hiters it (List.mem_cons_self it rest) c hc)
    simp only [runIters, List.mem_cons] at hres
    rcases hres with rfl | hres
    · intro hmem
      have hdisp :
          p ∈ (sweepMap d it.sweepNow it.fileExists (it.changes.foldl processChange m)).1 := by
        simpa [loopIteration] using hmem
      obtain ⟨e, he, he1⟩ :=
        sweepMap_dispatched_mem d it.sweepNow it.fileExists
          (it.changes.foldl processChange m) p hdisp
      exact hm1 e he he1
    · have hm2 : ∀ e ∈ (loopIteration d tst dm tm it m).1, e.1 ≠ p := by
        intro e he
        have : e ∈ it.changes.foldl processChange m := by
          apply sweepMap_still_subset d it.sweepNow it.fileExists
          simpa [loopIteration] using he
        exact hm1 e this
      exact ih (loopIteration d tst dm tm it m).1 hm2
        (fun it' hit' => hiters it' (List.mem_cons_of_mem it hit')) res hres

/-- C10: a delete event for an untracked path is a harmless no-op — the
handler is total (`dict.pop` with a default never raises) and the pending map
is unchanged. -/
theorem delete_absent_noop (m : PendingMap α) (p : FsPath) (t : α)
    (h : lookupPath m p = none) :
    processChange m ⟨ChangeKind.deleted, p, t⟩ = m := by
  have h' := (lookupPath_eq_none_iff m p).mp h
  show removePath m p = m
  apply List.filter_eq_self.mpr
  intro e he
  simpa using h' e he

theorem delete_absent_noop_witness :
    processChange [(["c", "q.pdf"], (1 : ℤ))] ⟨ChangeKind.deleted, ["c", "p.pdf"], 7⟩ =
      [(["c", "q.pdf"], (1 : ℤ))] :=
  delete_absent_noop [(["c", "q.pdf"], (1 : ℤ))] ["c", "p.pdf"] 7 (by decide)

/-- C6: processing a delete event removes the path's entry unconditionally,
and in any later iterations whose change batches never add or modify that
path, no sweep dispatches it. -/
theorem delete_prevents_dispatch (d : α) (tst : Bool) (dm tm : Nat)
    (m : PendingMap α) (p : FsPath) (t : α) (iters : List (IterInput α))
    (hno : ∀ it ∈ iters, ∀ c ∈ it.changes,
      (c.kind = ChangeKind.added ∨ c.kind = ChangeKind.modified) → c.path ≠ p) :
    lookupPath (processChange m ⟨ChangeKind.deleted, p, t⟩) p = none ∧
      ∀ res ∈ runIters d tst dm tm iters (processChange m ⟨ChangeKind.deleted, p, t⟩),
        p ∉ res.dispatched := by
  constructor
  · exact (lookupPath_eq_none_iff _ p).mpr (removePath_avoids m p)
  · exact runIters_avoid d tst dm tm p iters (removePath m p) (removePath_avoids m p) hno

theorem delete_prevents_dispatch_witness :
    lookupPath
        (processChange [(["c", "p.pdf"], (0 : ℤ))] ⟨ChangeKind.deleted, ["c", "p.pdf"], 1⟩)
        ["c", "p.pdf"] = none ∧
      ∀ res ∈ runIters (2 : ℤ) false 1000 500 [⟨[], 100, fun _ => true⟩]
          (processChange [(["c", "p.pdf"], (0 : ℤ))] ⟨ChangeKind.deleted, ["c", "p.pdf"], 1⟩),
        ["c", "p.pdf"] ∉ res.dispatched :=
  delete_prevents_dispatch 2 false 1000 500 [(["c", "p.pdf"], (0 : ℤ))] ["c", "p.pdf"] 1
    [⟨[], 100, fun _ => true⟩]
    (by
      intro it hit c hc hk
      rw [List.mem_singleton] at hit
      subst hit
      simp at hc)

theorem loopIteration_timeout (d : α) (tst : Bool) (dm tm : Nat)
    (it : IterInput α) (m : PendingMap α) :
    (loopIteration d tst dm tm it m).2.2 =
      if (loopIteration d tst dm tm it m).1 ≠ [] then dm
      else if tst then tm else 0 := by
  unfold loopIteration
  dsimp only
  rcases hsw : sweepMap d it.sweepNow it.fileExists (it.changes.foldl processChange m)
    with ⟨ds, m2⟩
  cases m2 with
  | nil => simp
  | cons e m2 => simp

/-- C3: on every loop iteration, the recomputed `read_timeout_ms` equals the
debounce interval when the swept pending map is non-empty, the testing
timeout when it is empty under the test harness, and zero otherwise. -/
theorem timeout_invariant (d : α) (tst : Bool) (dm tm : Nat) :
    ∀ (iters : List (IterInput α)) (m : PendingMap α),
      ∀ res ∈ runIters d tst dm tm iters m,
        res.timeoutAfter = if res.mapAfter ≠ [] then dm else if tst then tm else 0 := by
  intro iters
  induction iters with
  | nil => intro m res hres; simp [runIters] at hres
  | cons it rest ih =>
    intro m res hres
    simp only [runIters, List.mem_cons] at hres
    rcases hres with rfl | hres
    · exact loopIteration_timeout d tst dm tm it m
    · exact ih (loopIteration d tst dm tm it m).1 res hres

theorem timeout_invariant_witness :
    (⟨[], [], 0⟩ : IterResult ℤ).timeoutAfter =
      if (⟨[], [], 0⟩ : IterResult ℤ).mapAfter ≠ [] then 1000
      else if false then 500 else 0 :=
  timeout_invariant (2 : ℤ) false 1000 500 [⟨[], 5, fun _ => true⟩] []
    ⟨[], [], 0⟩ (by
      rw [show runIters (2 : ℤ) false 1000 500 [⟨[], 5, fun _ => true⟩] [] =
        [⟨[], [], 0⟩] from rfl]
      exact List.mem_singleton.mpr rfl)


theorem relativeTo_append (c rel : FsPath) : relativeTo c (c ++ rel) = .ok rel := by
  simp [relativeTo]

/-- C2 counterexample input: a consumer started on a directory other than
`CONSUMPTION_DIR` (the CLI accepts an arbitrary directory argument), so the
scanned paths do not lie under the configured consumption root. -/
def strayEnv : Env :=
  { consumptionDir := ["c"], ignorePatterns := [], subdirsAsTags := false,
    fnmatch := globMatch, isDir := fun _ => false, isFile := fun _ => true,
    extSupported := fun _ => true, openAttempt := fun _ _ => none,
    dbError := none, dispatchExc := fun _ _ => none }

/-- C2 counterexample: `_consume` does not return normally on every input
path — for a path outside the configured consumption root, `_is_ignored`'s
`relative_to` raises `ValueError`, which nothing in `_consume` catches. -/
theorem consume_outside_root_raises :
    (consume strayEnv [] ["d", "f.pdf"]).isOk = false := by
  decide

/-- C2 (amended): for every path under the configured consumption root,
`_consume` returns normally whatever the collaborators do — the tag-derivation
and dispatch try/except blocks swallow every failure there. -/
theorem consume_total_under_root (env : Env) (reg : TagReg) (p : FsPath)
    (h : p.take env.consumptionDir.length = env.consumptionDir) :
    (consume env reg p).isOk = true := by
  have hrel : relativeTo env.consumptionDir p = .ok (p.drop env.consumptionDir.length) := by
    simp [relativeTo, h]
  unfold consume
  split
  · rfl
  · split
    · rename_i e heq
      rw [isIgnoredE, hrel] at heq
      simp at heq
    · rfl
    · split
      · rfl
      · split
        · rfl
        · split
          · rfl
          · rfl

theorem consume_total_under_root_witness :
    (["c", "a", "f.pdf"] : FsPath).take (["c"] : FsPath).length = ["c"] ∧
      (consume
          { consumptionDir := ["c"], ignorePatterns := [], subdirsAsTags := true,
            fnmatch := globMatch, isDir := fun _ => false, isFile := fun _ => true,
            extSupported := fun _ => true, openAttempt := fun _ _ => none,
            dbError := some "db down", dispatchExc := fun _ _ => some "sink down" }
          [] ["c", "a", "f.pdf"]).isOk = true :=
  ⟨by decide,
    consume_total_under_root
      { consumptionDir := ["c"], ignorePatterns := [], subdirsAsTags := true,
        fnmatch := globMatch, isDir := fun _ => false, isFile := fun _ => true,
        extSupported := fun _ => true, openAttempt := fun _ _ => none,
        dbError := some "db down", dispatchExc := fun _ _ => some "sink down" }
      [] ["c", "a", "f.pdf"] (by decide)⟩

/-- C4 counterexample: on the root-relative path `x/x` (a directory `x`
containing a file also named `x`) with the configured pattern `x/*`, the
claim's positional segment list `[x/, x]` is matched by the pattern, yet
`_is_ignored` returns false: the code appends the trailing separator to a
part only when it differs from the final component's *name*, so here neither
part gets one. -/
theorem ignore_positional_claim_refuted :
    isIgnoredE globMatch ["c"] ["x/*"] ["c", "x", "x"] = .ok false ∧
      (["x/*"].any (fun pat => (specSegs ["x", "x"]).any (fun s => globMatch pat s))) = true :=
  ⟨by rfl, by decide⟩

/-- C4 (amended): for every path under the watched root, `is_ignored` splits
the root-relative path into segments, appends a trailing separator to every
segment *whose string differs from the final segment's name* (a directory
segment equal to the file name stays bare), and returns true iff at least one
configured pattern matches at least one resulting segment. -/
theorem ignored_iff_segment_match (fnm : String → String → Bool) (c : FsPath)
    (pats : List String) (p rel : FsPath) (h : relativeTo c p = .ok rel) :
    isIgnoredE fnm c pats p = .ok true ↔
      ∃ pat ∈ pats, ∃ s ∈ relSegs rel, fnm pat s = true := by
  simp [isIgnoredE, h, List.any_eq_true]

theorem ignored_iff_segment_match_witness :
    relativeTo ["c"] ["c", "skip", "f.pdf"] = .ok ["skip", "f.pdf"] ∧
      (isIgnoredE globMatch ["c"] ["skip/*"] ["c", "skip", "f.pdf"] = .ok true ↔
        ∃ pat ∈ ["skip/*"], ∃ s ∈ relSegs ["skip", "f.pdf"], globMatch pat s = true) :=
  ⟨by rfl, ignored_iff_segment_match globMatch ["c"] ["skip/*"]
    ["c", "skip", "f.pdf"] ["skip", "f.pdf"] (by rfl)⟩

/-- C8 counterexample input: a path that passes the directory and ignore
checks but no longer exists as a regular file. -/
def movedEnv : Env :=
  { consumptionDir := ["c"], ignorePatterns := [], subdirsAsTags := false,
    fnmatch := globMatch, isDir := fun _ => false, isFile := fun _ => false,
    extSupported := fun _ => true, openAttempt := fun _ _ => none,
    dbError := none, dispatchExc := fun _ _ => none }

/-- C8 counterexample: the vanished-file rejection is logged at *debug*
level (`logger.debug(... File has moved.)`), not at warning level as the
claim states. -/
theorem moved_file_rejected_at_debug_level :
    consume movedEnv [] ["c", "f.pdf"] =
      .ok ⟨[⟨LogLevel.debug, movedMsg ["c", "f.pdf"]⟩], [], []⟩ ∧
      LogLevel.debug ≠ LogLevel.warning :=
  ⟨by rfl, by decide⟩

/-- C8 (amended): when a path has passed the directory/ignore check but no
longer exists as a regular file, `_consume` rejects it with a single
debug-level log record (non-silent, but below warning level) and dispatches
nothing, whereas directories and ignored paths are skipped silently with no
log record at all. -/
theorem moved_file_debug_reject :
    (∀ (env : Env) (reg : TagReg) (p : FsPath),
      env.isDir p = false →
      isIgnoredE env.fnmatch env.consumptionDir env.ignorePatterns p = .ok false →
      env.isFile p = false →
      consume env reg p = .ok ⟨[⟨LogLevel.debug, movedMsg p⟩], [], reg⟩) ∧
    (∀ (env : Env) (reg : TagReg) (p : FsPath),
      env.isDir p = true → consume env reg p = .ok ⟨[], [], reg⟩) ∧
    (∀ (env : Env) (reg : TagReg) (p : FsPath),
      isIgnoredE env.fnmatch env.consumptionDir env.ignorePatterns p = .ok true →
      consume env reg p = .ok ⟨[], [], reg⟩) := by
  refine ⟨?_, ?_, ?_⟩
  · intro env reg p hd hig hf
    simp [consume, hd, hig, hf]
  · intro env reg p hd
    simp [consume, hd]
  · intro env reg p hig
    by_cases hd : env.isDir p = true
    · simp [consume, hd]
    · simp only [Bool.not_eq_true] at hd
      simp [consume, hd, hig]

theorem moved_file_debug_reject_witness :
    consume movedEnv [] ["c", "g.pdf"] =
        .ok ⟨[⟨LogLevel.debug, movedMsg ["c", "g.pdf"]⟩], [], []⟩ ∧
      consume
          { movedEnv with isDir := fun _ => true } [] ["c", "g.pdf"] = .ok ⟨[], [], []⟩ :=
  ⟨moved_file_debug_reject.1 movedEnv [] ["c", "g.pdf"] (by rfl) (by rfl) (by rfl),
    (moved_file_debug_reject.2.1 { movedEnv with isDir := fun _ => true } [] ["c", "g.pdf"]
      (by rfl))⟩

theorem openRetryLoop_first_ok (att : Nat → Option String) (h : att 0 = none) :
    openRetryLoop att 50 0 none = (0, true, none) := by
  show openRetryGo att (49 + 1) 0 none = (0, true, none)
  simp [openRetryGo, h]

/-- C9: when subdirectory tagging is enabled and the file lies directly in
the watched root, the dispatched job carries the *empty* tag-override list
`some []`; when subdirectory tagging is disabled, or tag derivation fails
(DB error swallowed by the try/except), the job carries `none` — the two
outcomes are distinguishable. -/
theorem direct_root_file_empty_tag_list :
    (∀ (env : Env) (reg : TagReg) (f : String),
      env.subdirsAsTags = true → env.dbError = none →
      env.isDir (env.consumptionDir ++ [f]) = false →
      isIgnoredE env.fnmatch env.consumptionDir env.ignorePatterns
        (env.consumptionDir ++ [f]) = .ok false →
      env.isFile (env.consumptionDir ++ [f]) = true →
      env.extSupported (env.consumptionDir ++ [f]) = true →
      env.openAttempt (env.consumptionDir ++ [f]) 0 = none →
      (consume env reg (env.consumptionDir ++ [f])).toOption.map (fun o => o.dispatches) =
        some [(env.consumptionDir ++ [f], some [])]) ∧
    (∀ (env : Env) (reg : TagReg) (p : FsPath),
      env.subdirsAsTags = false →
      env.isDir p = false →
      isIgnoredE env.fnmatch env.consumptionDir env.ignorePatterns p = .ok false →
      env.isFile p = true →
      env.extSupported p = true →
      env.openAttempt p 0 = none →
      (consume env reg p).toOption.map (fun o => o.dispatches) = some [(p, none)]) ∧
    (∀ (env : Env) (reg : TagReg) (p : FsPath) (e : String),
      env.subdirsAsTags = true → env.dbError = some e →
      env.isDir p = false →
      isIgnoredE env.fnmatch env.consumptionDir env.ignorePatterns p = .ok false →
      env.isFile p = true →
      env.extSupported p = true →
      env.openAttempt p 0 = none →
      (consume env reg p).toOption.map (fun o => o.dispatches) = some [(p, none)]) := by
  refine ⟨?_, ?_, ?_⟩
  · intro env reg f hsub hdb hd hig hf hext hatt
    have hopen := openRetryLoop_first_ok (env.openAttempt (env.consumptionDir ++ [f])) hatt
    have htag : tagStage env reg (env.consumptionDir ++ [f]) = (some [], [], reg) := by
      simp [tagStage, hsub, hdb, tagsFromPath, relativeTo_append, tagLoop]
    simp only [consume, hd, Bool.false_eq_true, if_false, hig, hf, Bool.not_true,
      hext, hopen, htag]
    cases hdx : env.dispatchExc (env.consumptionDir ++ [f]) (some []) <;>
      simp [dispatchStage, hdx, Except.toOption]
  · intro env reg p hsub hd hig hf hext hatt
    have hopen := openRetryLoop_first_ok (env.openAttempt p) hatt
    have htag : tagStage env reg p = (none, [], reg) := by
      simp [tagStage, hsub]
    simp only [consume, hd, Bool.false_eq_true, if_false, hig, hf, Bool.not_true,
      hext, hopen, htag]
    cases hdx : env.dispatchExc p none <;> simp [dispatchStage, hdx, Except.toOption]
  · intro env reg p e hsub hdb hd hig hf hext hatt
    have hopen := openRetryLoop_first_ok (env.openAttempt p) hatt
    have htag : tagStage env reg p = (none, [⟨LogLevel.error, tagErrMsg⟩], reg) := by
      simp [tagStage, hsub, hdb, tagsFromPath]
    simp only [consume, hd, Bool.false_eq_true, if_false, hig, hf, Bool.not_true,
      hext, hopen, htag]
    cases hdx : env.dispatchExc p none <;> simp [dispatchStage, hdx, Except.toOption]

/-- C9 witness environment: subdirectory tagging enabled, healthy collaborators. -/
def rootTagEnv : Env :=
  { consumptionDir := ["c"], ignorePatterns := [], subdirsAsTags := true,
    fnmatch := globMatch, isDir := fun _ => false, isFile := fun _ => true,
    extSupported := fun _ => true, openAttempt := fun _ _ => none,
    dbError := none, dispatchExc := fun _ _ => none }

theorem direct_root_file_empty_tag_list_witness :
    (consume rootTagEnv [] (["c"] ++ ["f.pdf"])).toOption.map (fun o => o.dispatches) =
        some [(["c"] ++ ["f.pdf"], some [])] ∧
      (consume { rootTagEnv with subdirsAsTags := false } [] ["c", "g.pdf"]).toOption.map
          (fun o => o.dispatches) = some [(["c", "g.pdf"], none)] ∧
      (consume { rootTagEnv with dbError := some "db gone" } [] ["c", "h.pdf"]).toOption.map
          (fun o => o.dispatches) = some [(["c", "h.pdf"], none)] :=
  ⟨direct_root_file_empty_tag_list.1 rootTagEnv [] "f.pdf" rfl rfl rfl (by rfl) rfl rfl rfl,
    direct_root_file_empty_tag_list.2.1 { rootTagEnv with subdirsAsTags := false } []
      ["c", "g.pdf"] rfl rfl (by rfl) rfl rfl rfl,
    direct_root_file_empty_tag_list.2.2 { rootTagEnv with dbError := some "db gone" } []
      ["c", "h.pdf"] "db gone" rfl rfl rfl (by rfl) rfl rfl rfl⟩

theorem openRetryGo_succeeds (att : Nat → Option String) :
    ∀ (n count : Nat) (l : Option String),
      (∃ i, count ≤ i ∧ i < count + n ∧ att i = none) →
      (openRetryGo att n count l).1 < count + n ∧ (openRetryGo att n count l).2.1 = true := by
  intro n
  induction n with
  | zero =>
    intro count l h
    obtain ⟨i, h1, h2, _⟩ := h
    omega
  | succ n ih =>
    intro count l h
    obtain ⟨i, h1, h2, h3⟩ := h
    cases hat : att count with
    | none =>
      refine ⟨?_, ?_⟩ <;> simp [openRetryGo, hat]
    | some e =>
      have hi : count + 1 ≤ i := by
        rcases Nat.eq_or_lt_of_le h1 with heq | hlt
        · rw [← heq, hat] at h3
          cases h3
        · exact hlt
      have hrec := ih (count + 1) (some e) ⟨i, hi, by omega, h3⟩
      have hstep : openRetryGo att (n + 1) count l = openRetryGo att n (count + 1) (some e) := by
        simp [openRetryGo, hat]
      rw [hstep]
      exact ⟨by omega, hrec.2⟩

theorem openRetryGo_allfail (att : Nat → Option String) :
    ∀ (n count : Nat) (l : Option String), 0 < n →
      (∀ i, i < count + n → (att i).isSome) →
      openRetryGo att n count l = (count + n, false, att (count + n - 1)) := by
  intro n
  induction n with
  | zero =>
    intro count l h
    omega
  | succ n ih =>
    intro count l _ hall
    have hc : (att count).isSome := hall count (by omega)
    cases hsome : att count with
    | none =>
      rw [hsome] at hc
      simp at hc
    | some e =>
      rcases Nat.eq_zero_or_pos n with rfl | hn
      · have : count + 1 - 1 = count := by omega
        simp [openRetryGo, hsome, this, hsome]
      · have hrec := ih (count + 1) (some e) hn (fun i hi => hall i (by omega))
        have hstep : openRetryGo att (n + 1) count l = openRetryGo att n (count + 1) (some e) := by
          simp [openRetryGo, hsome]
        rw [hstep, hrec]
        have h1 : count + 1 + n = count + (n + 1) := by omega
        rw [h1]

theorem openRetryLoop_allfail_50 (att : Nat → Option String)
    (h : ∀ i, i < 50 → (att i).isSome) :
    openRetryLoop att 50 0 none = (50, false, att 49) := by
  have := openRetryGo_allfail att 50 0 none (by omega) (by simpa using h)
  simpa [openRetryLoop] using this

theorem openRetryLoop_succeeds_50 (att : Nat → Option String)
    (h : ∃ i, i < 50 ∧ att i = none) :
    (openRetryLoop att 50 0 none).1 < 50 := by
  obtain ⟨i, hi, hn⟩ := h
  have := openRetryGo_succeeds att 50 0 none ⟨i, Nat.zero_le i, by omega, hn⟩
  simpa [openRetryLoop] using this.1

/-- C5: a file that passes the earlier gates and becomes openable within the
50-attempt budget is handed to the task queue exactly once; a file whose 50
open attempts all raise is never dispatched and produces exactly the one
warning record carrying the text of the last OS error. -/
theorem open_retry_dispatch :
    (∀ (env : Env) (reg : TagReg) (p : FsPath),
      env.isDir p = false →
      isIgnoredE env.fnmatch env.consumptionDir env.ignorePatterns p = .ok false →
      env.isFile p = true →
      env.extSupported p = true →
      (∃ i, i < 50 ∧ env.openAttempt p i = none) →
      (consume env reg p).toOption.map (fun o => o.dispatches.length) = some 1) ∧
    (∀ (env : Env) (reg : TagReg) (p : FsPath) (e : String),
      env.isDir p = false →
      isIgnoredE env.fnmatch env.consumptionDir env.ignorePatterns p = .ok false →
      env.isFile p = true →
      env.extSupported p = true →
      (∀ i, i < 50 → (env.openAttempt p i).isSome) →
      env.openAttempt p 49 = some e →
      consume env reg p =
        .ok ⟨[⟨LogLevel.warning, openFailMsg p (some e)⟩], [], reg⟩) := by
  constructor
  · intro env reg p hd hig hf hext hsucc
    have hopen := openRetryLoop_succeeds_50 (env.openAttempt p) hsucc
    have hnotle : ¬ 50 ≤ (openRetryLoop (env.openAttempt p) 50 0 none).1 := by omega
    simp only [consume, hd, Bool.false_eq_true, if_false, hig, hf, Bool.not_true,
      hext, hnotle]
    cases hdx : env.dispatchExc p (tagStage env reg p).1 <;>
      simp [dispatchStage, hdx, Except.toOption]
  · intro env reg p e hd hig hf hext hall h49
    have hopen := openRetryLoop_allfail_50 (env.openAttempt p) hall
    simp only [consume, hd, Bool.false_eq_true, if_false, hig, hf, Bool.not_true,
      hext, hopen, h49]
    simp

/-- C5 witness environment: the first three open attempts raise, the fourth
succeeds. -/
def retryEnv : Env :=
  { consumptionDir := ["c"], ignorePatterns := [], subdirsAsTags := false,
    fnmatch := globMatch, isDir := fun _ => false, isFile := fun _ => true,
    extSupported := fun _ => true,
    openAttempt := fun _ i => if i < 3 then some "busy" else none,
    dbError := none, dispatchExc := fun _ _ => none }

theorem open_retry_dispatch_witness :
    (consume retryEnv [] ["c", "f.pdf"]).toOption.map (fun o => o.dispatches.length) =
        some 1 ∧
      consume { retryEnv with openAttempt := fun _ _ => some "locked" } [] ["c", "g.pdf"] =
        .ok ⟨[⟨LogLevel.warning, openFailMsg ["c", "g.pdf"] (some "locked")⟩], [], []⟩ :=
  ⟨open_retry_dispatch.1 retryEnv [] ["c", "f.pdf"] rfl rfl rfl rfl
      ⟨3, by omega, by rfl⟩,
    open_retry_dispatch.2 { retryEnv with openAttempt := fun _ _ => some "locked" } []
      ["c", "g.pdf"] "locked" rfl rfl rfl rfl (fun i _ => rfl) rfl⟩

theorem findLower_congr (r : TagReg) (a b : String) (h : lowerStr a = lowerStr b) :
    findLower r a = findLower r b := by
  simp only [findLower, h]

theorem findLower_append_of_some (r s : TagReg) (n : String) (e : String × Nat)
    (h : findLower r n = some e) : findLower (r ++ s) n = some e := by
  unfold findLower at h ⊢
  rw [List.find?_append, h]
  rfl

theorem findLower_append_of_none (r s : TagReg) (n : String)
    (h : findLower r n = none) : findLower (r ++ s) n = findLower s n := by
  unfold findLower at h ⊢
  rw [List.find?_append, h]
  rfl

theorem getOrCreate_of_found (r : TagReg) (n : String) (e : String × Nat)
    (h : findLower r n = some e) : getOrCreate n r = (e.2, r) := by
  simp [getOrCreate, h]

theorem getOrCreate_snd_append (n : String) (r : TagReg) :
    ∃ s, (getOrCreate n r).2 = r ++ s := by
  cases h : findLower r n with
  | none => exact ⟨[(n, freshId r)], by simp [getOrCreate, h]⟩
  | some e => exact ⟨[], by simp [getOrCreate, h]⟩

theorem findLower_getOrCreate_self (n : String) (r : TagReg) :
    ∃ nm, findLower (getOrCreate n r).2 n = some (nm, (getOrCreate n r).1) := by
  cases h : findLower r n with
  | some e =>
    refine ⟨e.1, ?_⟩
    rw [getOrCreate_of_found r n e h]
    simpa using h
  | none =>
    refine ⟨n, ?_⟩
    have h2 : getOrCreate n r = (freshId r, r ++ [(n, freshId r)]) := by
      simp [getOrCreate, h]
    rw [h2]
    rw [findLower_append_of_none r _ n h]
    simp [findLower]

theorem tagLoop_snd_append : ∀ (parts : List String) (r : TagReg) (ids : List Nat),
    ∃ s, (tagLoop parts r ids).2 = r ++ s := by
  intro parts
  induction parts with
  | nil => intro r ids; exact ⟨[], by simp [tagLoop]⟩
  | cons part rest ih =>
    intro r ids
    obtain ⟨s1, hs1⟩ := getOrCreate_snd_append part r
    obtain ⟨s2, hs2⟩ := ih (getOrCreate part r).2 (addIdOnce ids (getOrCreate part r).1)
    refine ⟨s1 ++ s2, ?_⟩
    show (tagLoop rest (getOrCreate part r).2 (addIdOnce ids (getOrCreate part r).1)).2 = _
    rw [hs2, hs1, List.append_assoc]

theorem findLower_tagLoop_of_some (parts : List String) (r : TagReg) (ids : List Nat)
    (n : String) (e : String × Nat) (h : findLower r n = some e) :
    findLower (tagLoop parts r ids).2 n = some e := by
  obtain ⟨s, hs⟩ := tagLoop_snd_append parts r ids
  rw [hs]
  exact findLower_append_of_some r s n e h

theorem idAt_congr (r : TagReg) (a b : String) (h : lowerStr a = lowerStr b) :
    idAt r a = idAt r b := by
  unfold idAt getOrCreate
  rw [findLower_congr r a b h]
  cases findLower r b <;> rfl

theorem idAt_of_found (r : TagReg) (n : String) (e : String × Nat)
    (h : findLower r n = some e) : idAt r n = e.2 := by
  unfold idAt
  rw [getOrCreate_of_found r n e h]

theorem tagLoop_replay : ∀ (parts : List String) (r : TagReg) (ids : List Nat),
    tagLoop parts (tagLoop parts r ids).2 ids = tagLoop parts r ids := by
  intro parts
  induction parts with
  | nil => intro r ids; rfl
  | cons part rest ih =>
    intro r ids
    obtain ⟨nm, hfind⟩ := findLower_getOrCreate_self part r
    have hfindF := findLower_tagLoop_of_some rest (getOrCreate part r).2
      (addIdOnce ids (getOrCreate part r).1) part _ hfind
    show tagLoop rest
        (getOrCreate part
          (tagLoop rest (getOrCreate part r).2 (addIdOnce ids (getOrCreate part r).1)).2).2
        (addIdOnce ids
          (getOrCreate part
            (tagLoop rest (getOrCreate part r).2 (addIdOnce ids (getOrCreate part r).1)).2).1)
      = tagLoop rest (getOrCreate part r).2 (addIdOnce ids (getOrCreate part r).1)
    rw [getOrCreate_of_found _ part _ hfindF]
    exact ih (getOrCreate part r).2 (addIdOnce ids (getOrCreate part r).1)

theorem mem_addIdOnce_self (ids : List Nat) (i : Nat) : i ∈ addIdOnce ids i := by
  unfold addIdOnce
  split
  · assumption
  · simp

theorem nodup_addIdOnce (ids : List Nat) (i : Nat) (h : ids.Nodup) :
    (addIdOnce ids i).Nodup := by
  unfold addIdOnce
  split
  · exact h
  · rename_i hn
    simp [List.nodup_append, h, hn]

theorem tagLoop_ids_mono : ∀ (parts : List String) (r : TagReg) (ids : List Nat) (j : Nat),
    j ∈ ids → j ∈ (tagLoop parts r ids).1 := by
  intro parts
  induction parts with
  | nil => intro r ids j hj; exact hj
  | cons part rest ih =>
    intro r ids j hj
    show j ∈ (tagLoop rest (getOrCreate part r).2 (addIdOnce ids (getOrCreate part r).1)).1
    apply ih
    unfold addIdOnce
    split
    · exact hj
    · simp [hj]

theorem tagLoop_nodup : ∀ (parts : List String) (r : TagReg) (ids : List Nat),
    ids.Nodup → (tagLoop parts r ids).1.Nodup := by
  intro parts
  induction parts with
  | nil => intro r ids h; exact h
  | cons part rest ih =>
    intro r ids h
    exact ih (getOrCreate part r).2 (addIdOnce ids (getOrCreate part r).1)
      (nodup_addIdOnce ids (getOrCreate part r).1 h)

theorem tagLoop_resolves : ∀ (parts : List String) (r : TagReg) (ids : List Nat),
    ∀ q ∈ parts, idAt (tagLoop parts r ids).2 q ∈ (tagLoop parts r ids).1 := by
  intro parts
  induction parts with
  | nil => intro r ids q hq; simp at hq
  | cons part rest ih =>
    intro r ids q hq
    rcases List.mem_cons.mp hq with heq | hq
    · subst heq
      obtain ⟨nm, hfind⟩ := findLower_getOrCreate_self q r
      have hfindF := findLower_tagLoop_of_some rest (getOrCreate q r).2
        (addIdOnce ids (getOrCreate q r).1) q _ hfind
      show idAt (tagLoop rest (getOrCreate q r).2 (addIdOnce ids (getOrCreate q r).1)).2 q
        ∈ (tagLoop rest (getOrCreate q r).2 (addIdOnce ids (getOrCreate q r).1)).1
      rw [idAt_of_found _ q _ hfindF]
      exact tagLoop_ids_mono rest _ _ _ (mem_addIdOnce_self ids (getOrCreate q r).1)
    · exact ih (getOrCreate part r).2 (addIdOnce ids (getOrCreate part r).1) q hq

theorem tagsFromPath_under (c : FsPath) (r : TagReg) (rel : FsPath) :
    tagsFromPath none c r (c ++ rel) = .ok (tagLoop rel.dropLast r []) := by
  unfold tagsFromPath
  rw [relativeTo_append]

theorem findLower_tagLoop_isSome : ∀ (parts : List String) (r : TagReg) (ids : List Nat),
    ∀ q ∈ parts, (findLower (tagLoop parts r ids).2 q).isSome := by
  intro parts
  induction parts with
  | nil => intro r ids q hq; simp at hq
  | cons part rest ih =>
    intro r ids q hq
    rcases List.mem_cons.mp hq with heq | hq
    · subst heq
      obtain ⟨nm, hfind⟩ := findLower_getOrCreate_self q r
      have hfindF := findLower_tagLoop_of_some rest (getOrCreate q r).2
        (addIdOnce ids (getOrCreate q r).1) q _ hfind
      show (findLower (tagLoop rest (getOrCreate q r).2 (addIdOnce ids (getOrCreate q r).1)).2
        q).isSome
      rw [hfindF]
      rfl
    · exact ih (getOrCreate part r).2 (addIdOnce ids (getOrCreate part r).1) q hq

theorem getOrCreate_of_present (r : TagReg) (n : String) (h : (findLower r n).isSome) :
    getOrCreate n r = (idAt r n, r) := by
  cases hf : findLower r n with
  | none => rw [hf] at h; simp at h
  | some e => rw [getOrCreate_of_found r n e hf, idAt_of_found r n e hf]

/-- C7: against the modelled idempotent case-insensitive tag registry,
deriving tags for `a/B/file.pdf` and then for `a/b/file2.pdf` resolves the
segment spelled `B` and `b` to the same tag id (and leaves the registry
unchanged the second time); repeating a derivation returns the identical
result and creates nothing; and any two case-insensitively equal segments of
one path resolve to one shared tag id that occurs once in the (duplicate-free)
result list. -/
theorem tag_derivation_idempotent (c : FsPath) (r : TagReg) :
    (∀ o1 o2,
      tagsFromPath none c r (c ++ ["a", "B", "file.pdf"]) = .ok o1 →
      tagsFromPath none c o1.2 (c ++ ["a", "b", "file2.pdf"]) = .ok o2 →
      idAt o2.2 "b" = idAt o1.2 "B" ∧ idAt o1.2 "B" ∈ o1.1 ∧
        idAt o2.2 "b" ∈ o2.1 ∧ o2.2 = o1.2) ∧
    (∀ (p : FsPath) o3 o4,
      tagsFromPath none c r p = .ok o3 →
      tagsFromPath none c o3.2 p = .ok o4 → o4 = o3) ∧
    (∀ (rel : FsPath) o5,
      tagsFromPath none c r (c ++ rel) = .ok o5 →
      o5.1.Nodup ∧
        ∀ a ∈ rel.dropLast, ∀ b ∈ rel.dropLast, lowerStr a = lowerStr b →
          idAt o5.2 a = idAt o5.2 b ∧ idAt o5.2 a ∈ o5.1) := by
  refine ⟨?_, ?_, ?_⟩
  · intro o1 o2 h1 h2
    rw [tagsFromPath_under] at h1
    have h1' : o1 = tagLoop ["a", "B"] r [] := (Except.ok.inj h1).symm
    subst h1'
    rw [tagsFromPath_under] at h2
    have h2' : o2 = tagLoop ["a", "b"] (tagLoop ["a", "B"] r []).2 [] :=
      (Except.ok.inj h2).symm
    subst h2'
    set rF := (tagLoop ["a", "B"] r []).2 with hrF
    have hpa : (findLower rF "a").isSome := by
      exact findLower_tagLoop_isSome ["a", "B"] r [] "a" (by simp)
    have hpB : (findLower rF "B").isSome := by
      exact findLower_tagLoop_isSome ["a", "B"] r [] "B" (by simp)
    have hlbB : lowerStr "b" = lowerStr "B" := by decide
    have hpb : (findLower rF "b").isSome := by
      rw [findLower_congr rF "b" "B" hlbB]
      exact hpB
    have hga : getOrCreate "a" rF = (idAt rF "a", rF) := getOrCreate_of_present rF "a" hpa
    have hgb : getOrCreate "b" rF = (idAt rF "b", rF) := getOrCreate_of_present rF "b" hpb
    have hrun2 : tagLoop ["a", "b"] rF [] =
        (addIdOnce (addIdOnce [] (idAt rF "a")) (idAt rF "b"), rF) := by
      show tagLoop ["b"] (getOrCreate "a" rF).2 (addIdOnce [] (getOrCreate "a" rF).1) = _
      rw [hga]
      show tagLoop [] (getOrCreate "b" rF).2
        (addIdOnce (addIdOnce [] (idAt rF "a")) (getOrCreate "b" rF).1) = _
      rw [hgb]
      rfl
    refine ⟨?_, ?_, ?_, ?_⟩
    · rw [hrun2]
      exact idAt_congr rF "b" "B" hlbB
    · exact tagLoop_resolves ["a", "B"] r [] "B" (by simp)
    · rw [hrun2]
      exact mem_addIdOnce_self _ _
    · rw [hrun2]
  · intro p o3 o4 h3 h4
    cases hrel : relativeTo c p with
    | error e =>
      unfold tagsFromPath at h3
      rw [hrel] at h3
      cases h3
    | ok rel =>
      unfold tagsFromPath at h3
      rw [hrel] at h3
      have h3' : o3 = tagLoop rel.dropLast r [] := (Except.ok.inj h3).symm
      subst h3'
      unfold tagsFromPath at h4
      rw [hrel] at h4
      have h4' : o4 = tagLoop rel.dropLast (tagLoop rel.dropLast r []).2 [] :=
        (Except.ok.inj h4).symm
      subst h4'
      exact tagLoop_replay rel.dropLast r []
  · intro rel o5 h5
    rw [tagsFromPath_under] at h5
    have h5' : o5 = tagLoop rel.dropLast r [] := (Except.ok.inj h5).symm
    subst h5'
    refine ⟨tagLoop_nodup rel.dropLast r [] (by simp), ?_⟩
    intro a ha b hb hl
    exact ⟨idAt_congr _ a b hl, tagLoop_resolves rel.dropLast r [] a ha⟩

theorem tag_derivation_idempotent_witness :
    (idAt (([1, 2], [("a", 1), ("B", 2)]) : List Nat × TagReg).2 "b" =
        idAt (([1, 2], [("a", 1), ("B", 2)]) : List Nat × TagReg).2 "B" ∧
      idAt (([1, 2], [("a", 1), ("B", 2)]) : List Nat × TagReg).2 "B" ∈
        (([1, 2], [("a", 1), ("B", 2)]) : List Nat × TagReg).1 ∧
      idAt (([1, 2], [("a", 1), ("B", 2)]) : List Nat × TagReg).2 "b" ∈
        (([1, 2], [("a", 1), ("B", 2)]) : List Nat × TagReg).1 ∧
      (([1, 2], [("a", 1), ("B", 2)]) : List Nat × TagReg).2 =
        (([1, 2], [("a", 1), ("B", 2)]) : List Nat × TagReg).2) ∧
      (([1], [("x", 1)]) : List Nat × TagReg) = (([1], [("x", 1)]) : List Nat × TagReg) ∧
      ((([1], [("x", 1)]) : List Nat × TagReg).1.Nodup ∧
        ∀ a ∈ (["x", "X", "f.pdf"] : FsPath).dropLast,
          ∀ b ∈ (["x", "X", "f.pdf"] : FsPath).dropLast, lowerStr a = lowerStr b →
            idAt (([1], [("x", 1)]) : List Nat × TagReg).2 a =
                idAt (([1], [("x", 1)]) : List Nat × TagReg).2 b ∧
              idAt (([1], [("x", 1)]) : List Nat × TagReg).2 a ∈
                (([1], [("x", 1)]) : List Nat × TagReg).1) :=
  ⟨(tag_derivation_idempotent ["c"] []).1 ([1, 2], [("a", 1), ("B", 2)])
      ([1, 2], [("a", 1), ("B", 2)]) (by rfl) (by rfl),
    (tag_derivation_idempotent ["c"] []).2.1 ["c", "x", "f.pdf"] ([1], [("x", 1)])
      ([1], [("x", 1)]) (by rfl) (by rfl),
    (tag_derivation_idempotent ["c"] []).2.2 ["x", "X", "f.pdf"] ([1], [("x", 1)])
      (by rfl)⟩

theorem actTimes_cons (a : Action α) (rest : List (Action α)) :
    actTimes (a :: rest) = actTime a :: actTimes rest := rfl

theorem evTimes_subset_actTimes : ∀ (tr : List (Action α)) (t : α),
    t ∈ evTimes tr → t ∈ actTimes tr := by
  intro tr
  induction tr with
  | nil => intro t h; simp [evTimes] at h
  | cons a rest ih =>
    intro t h
    cases a with
    | event u =>
      rw [show evTimes (Action.event u :: rest) = u :: evTimes rest from rfl] at h
      rw [actTimes_cons]
      rcases List.mem_cons.mp h with heq | h2
      · rw [heq]
        exact List.mem_cons_self _ _
      · exact List.mem_cons_of_mem _ (ih t h2)
    | sweep s ex =>
      rw [show evTimes (Action.sweep s ex :: rest) = evTimes rest from rfl] at h
      rw [actTimes_cons]
      exact List.mem_cons_of_mem _ (ih t h)

theorem runFrom_none_no_events (d : α) : ∀ (tr : List (Action α)), evTimes tr = [] →
    runFrom d none tr = (none, []) := by
  intro tr
  induction tr with
  | nil => intro _; rfl
  | cons a rest ih =>
    intro h
    cases a with
    | event u =>
      rw [show evTimes (Action.event u :: rest) = u :: evTimes rest from rfl] at h
      cases h
    | sweep s ex =>
      rw [show evTimes (Action.sweep s ex :: rest) = evTimes rest from rfl] at h
      show runFrom d none rest = (none, [])
      exact ih h

theorem runFrom_burst (d : α) :
    ∀ (tr : List (Action α)) (tk : Option α),
      (actTimes tr).Pairwise (· ≤ ·) →
      (∀ t0, tk = some t0 → ∀ u ∈ actTimes tr, t0 ≤ u) →
      List.Chain' (fun a b => b - a < d) (optCons tk (evTimes tr)) →
      (runFrom d tk tr).2.length ≤ 1 ∧
        ∀ s ∈ (runFrom d tk tr).2, ∀ t ∈ optCons tk (evTimes tr), s - t > d := by
  intro tr
  induction tr with
  | nil =>
    intro tk _ _ _
    have hre : runFrom d tk [] = (tk, []) := by cases tk <;> rfl
    rw [hre]
    constructor
    · simp
    · intro s hs
      cases hs
  | cons a rest ih =>
    intro tk hpw hbd hch
    cases a with
    | event u =>
      have hre : runFrom d tk (Action.event u :: rest) = runFrom d (some u) rest := by
        cases tk <;> rfl
      rw [hre]
      rw [actTimes_cons] at hpw
      have hpw2 := List.pairwise_cons.mp hpw
      have hch' : List.Chain' (fun a b => b - a < d) (optCons (some u) (evTimes rest)) := by
        cases tk with
        | none => exact hch
        | some t0 =>
          have hch0 : List.Chain' (fun a b => b - a < d) (t0 :: u :: evTimes rest) := hch
          exact hch0.tail
      have hbd' : ∀ t1, some u = some t1 → ∀ w ∈ actTimes rest, t1 ≤ w := by
        intro t1 ht1 w hw
        injection ht1 with h2
        rw [← h2]
        exact hpw2.1 w hw
      obtain ⟨hlen, hmem⟩ := ih (some u) hpw2.2 hbd' hch'
      refine ⟨hlen, ?_⟩
      intro s hs t ht
      cases tk with
      | none =>
        exact hmem s hs t ht
      | some t0 =>
        have ht2 : t = t0 ∨ t ∈ u :: evTimes rest := List.mem_cons.mp ht
        rcases ht2 with heq | ht3
        · have hsu : s - u > d := hmem s hs u (List.mem_cons_self u _)
          have ht0u : t0 ≤ u := hbd t0 rfl u (List.mem_cons_self _ _)
          rw [heq]
          exact lt_of_lt_of_le hsu (sub_le_sub_left ht0u s)
        · exact hmem s hs t ht3
    | sweep s0 ex =>
      rw [actTimes_cons] at hpw
      have hpw2 := List.pairwise_cons.mp hpw
      cases tk with
      | none =>
        obtain ⟨hlen, hmem⟩ := ih none hpw2.2 (fun t1 h => by cases h) hch
        exact ⟨hlen, hmem⟩
      | some t0 =>
        by_cases hcond : s0 - t0 > d ∧ ex = true
        · have hrun : runFrom d (some t0) (Action.sweep s0 ex :: rest) =
              ((runFrom d none rest).1, s0 :: (runFrom d none rest).2) := by
            rw [show runFrom d (some t0) (Action.sweep s0 ex :: rest) =
              if s0 - t0 > d ∧ ex = true then
                ((runFrom d none rest).1, s0 :: (runFrom d none rest).2)
              else if ex then runFrom d (some t0) rest
              else runFrom d none rest from rfl, if_pos hcond]
          have hev : evTimes rest = [] := by
            cases hevt : evTimes rest with
            | nil => rfl
            | cons t1 ts =>
              exfalso
              have ht1mem : t1 ∈ evTimes rest := by
                rw [hevt]
                exact List.mem_cons_self _ _
              have ht1act : t1 ∈ actTimes rest := evTimes_subset_actTimes rest t1 ht1mem
              have hs0t1 : s0 ≤ t1 := hpw2.1 t1 ht1act
              have hch2 : List.Chain' (fun a b => b - a < d) (t0 :: t1 :: ts) := by
                have hch0 : List.Chain' (fun a b => b - a < d) (t0 :: evTimes rest) := hch
                rw [hevt] at hch0
                exact hch0
              have ht1t0 : t1 - t0 < d := (List.chain'_cons.mp hch2).1
              have hd1 : d < t1 - t0 :=
                lt_of_lt_of_le hcond.1 (sub_le_sub_right hs0t1 t0)
              exact absurd ht1t0 (not_lt.mpr (le_of_lt hd1))
          have hnone := runFrom_none_no_events d rest hev
          rw [hrun, hnone]
          constructor
          · show ((none, [s0]) : Option α × List α).2.length ≤ 1
            simp
          · intro s hs t ht
            have hs' : s = s0 := by
              have : s ∈ [s0] := hs
              simpa using this
            have ht' : t = t0 := by
              have ht2 : t ∈ t0 :: evTimes rest := ht
              rw [hev] at ht2
              simpa using ht2
            rw [hs', ht']
            exact hcond.1
        · cases hex : ex with
          | true =>
            rw [hex] at hcond
            have hrun : runFrom d (some t0) (Action.sweep s0 true :: rest) =
                runFrom d (some t0) rest := by
              rw [show runFrom d (some t0) (Action.sweep s0 true :: rest) =
                if s0 - t0 > d ∧ true = true then
                  ((runFrom d none rest).1, s0 :: (runFrom d none rest).2)
                else if true then runFrom d (some t0) rest
                else runFrom d none rest from rfl, if_neg hcond]
              simp
            have hbd' : ∀ t1, some t0 = some t1 → ∀ w ∈ actTimes rest, t1 ≤ w := by
              intro t1 ht1 w hw
              injection ht1 with h2
              rw [← h2]
              exact hbd t0 rfl w (by
                rw [actTimes_cons]
                exact List.mem_cons_of_mem _ hw)
            obtain ⟨hlen, hmem⟩ := ih (some t0) hpw2.2 hbd' hch
            rw [hrun]
            exact ⟨hlen, hmem⟩
          | false =>
            have hrun : runFrom d (some t0) (Action.sweep s0 false :: rest) =
                runFrom d none rest := by
              rw [show runFrom d (some t0) (Action.sweep s0 false :: rest) =
                if s0 - t0 > d ∧ false = true then
                  ((runFrom d none rest).1, s0 :: (runFrom d none rest).2)
                else if false then runFrom d (some t0) rest
                else runFrom d none rest from rfl]
              simp
            have hch' : List.Chain' (fun a b => b - a < d) (evTimes rest) := by
              have hch0 : List.Chain' (fun a b => b - a < d) (t0 :: evTimes rest) := hch
              exact hch0.tail
            obtain ⟨hlen, hmem⟩ := ih none hpw2.2 (fun t1 h => by cases h) hch'
            rw [hrun]
            refine ⟨hlen, ?_⟩
            intro s hs t ht
            have ht2 : t = t0 ∨ t ∈ evTimes rest := List.mem_cons.mp ht
            rcases ht2 with heq | hterest
            · cases hevt : evTimes rest with
              | nil =>
                rw [runFrom_none_no_events d rest hevt] at hs
                cases hs
              | cons t1 ts =>
                have ht1 : t1 ∈ evTimes rest := by
                  rw [hevt]
                  exact List.mem_cons_self _ _
                have hst1 : s - t1 > d := hmem s hs t1 ht1
                have ht0t1 : t0 ≤ t1 :=
                  hbd t0 rfl t1 (by
                    rw [actTimes_cons]
                    exact List.mem_cons_of_mem _ (evTimes_subset_actTimes rest t1 ht1))
                rw [heq]
                exact lt_of_lt_of_le hst1 (sub_le_sub_left ht0t1 s)
            · exact hmem s hs t hterest

/-- C1: for a trace of add/modify events and sweeps on one path with
nondecreasing clock readings, in which consecutive events arrive less than
the debounce interval apart, the sweeps hand the path to `_consume` at most
once, and any handing-off sweep lies a full quiet period (strictly more than
the debounce interval) after every event of the sequence — in particular
after the last one. -/
theorem debounce_coalesces (d : α) (tr : List (Action α))
    (hmono : (actTimes tr).Pairwise (· ≤ ·))
    (hburst : List.Chain' (fun a b => b - a < d) (evTimes tr)) :
    (runFrom d none tr).2.length ≤ 1 ∧
      ∀ s ∈ (runFrom d none tr).2, ∀ t ∈ evTimes tr, s - t > d := by
  exact runFrom_burst d tr none hmono (fun t0 h => by cases h) hburst

theorem debounce_coalesces_witness :
    (runFrom (2 : ℤ) none
          [Action.event 0, Action.event 1, Action.sweep 2 true, Action.sweep 4 true,
            Action.sweep 10 true]).2.length ≤ 1 ∧
      ∀ s ∈ (runFrom (2 : ℤ) none
          [Action.event 0, Action.event 1, Action.sweep 2 true, Action.sweep 4 true,
            Action.sweep 10 true]).2,
        ∀ t ∈ evTimes
            [Action.event (0 : ℤ), Action.event 1, Action.sweep 2 true, Action.sweep 4 true,
              Action.sweep 10 true], s - t > 2 :=
  debounce_coalesces 2
    [Action.event 0, Action.event 1, Action.sweep 2 true, Action.sweep 4 true,
      Action.sweep 10 true]
    (by decide)
    (by
      rw [show evTimes
          [Action.event (0 : ℤ), Action.event 1, Action.sweep 2 true, Action.sweep 4 true,
            Action.sweep 10 true] = [0, 1] from rfl]
      exact List.chain'_pair.mpr (by decide))

/-!
Bridge lemmas: the per-path trace semantics `runFrom` is the pointwise
projection of the map-level operations of the event loop — an add/modify
event is `setKey` (overwriting the tracked timestamp), and one sweep step on
a single-entry map dispatches, keeps or drops the entry under exactly the
condition of the per-path sweep action.
-/

theorem lookupPath_setKey_self (m : PendingMap α) (p : FsPath) (t : α) :
    lookupPath (setKey m p t) p = some t := by
  induction m with
  | nil => simp [setKey, lookupPath]
  | cons e m ih =>
    by_cases h : e.1 = p
    · simp [setKey, h, lookupPath]
    · simp only [setKey, if_neg h, lookupPath]
      rw [List.find?_cons_of_neg _ (by simpa using h)]
      exact ih

theorem processChange_event_lookup (m : PendingMap α) (p : FsPath) (t : α) :
    lookupPath (processChange m ⟨ChangeKind.added, p, t⟩) p = some t :=
  lookupPath_setKey_self m p t

theorem sweepMap_singleton (d now : α) (ex : FsPath → Bool) (p : FsPath) (t : α) :
    sweepMap d now ex [(p, t)] =
      if now - t > d ∧ ex p = true then ([p], [])
      else if ex p then ([], [(p, t)]) else ([], []) := by
  show (if now - t > d ∧ ex p = true then ([p], ([] : PendingMap α))
      else if ex p then ([], [(p, t)]) else ([], [])) = _
  rfl

end PaperlessConsumer
